import Mathlib

/-!
Verification development for the CLIBoard spawner (`spawner/src/server.js`).

The JavaScript source is shallowly embedded: JS strings are modelled as
`List Char` (abbreviated `Str`) where string algorithms matter, and as Lean
`String` where only byte-equality matters; JS objects used as string maps
become insertion-ordered association lists; the in-memory run registry and
the Docker daemon state become explicit record states transformed by one
Lean function per HTTP handler / event callback.
-/

/-- JS strings, modelled as lists of characters. -/
abbrev Str := List Char

/-- ASCII whitespace recognised by `String.prototype.trim` (the source only
ever meets ASCII here). -/
def isWsChar (c : Char) : Bool := c = ' ' || c = '\t' || c = '\n' || c = '\r'

/-- Drop leading whitespace (left half of JS `trim`). -/
def trimLeftStr (s : Str) : Str := s.dropWhile isWsChar

/-- Drop trailing whitespace (right half of JS `trim`). -/
def trimRightStr (s : Str) : Str := (s.reverse.dropWhile isWsChar).reverse

/-- JS `String.prototype.trim`. -/
def trimStr (s : Str) : Str := trimLeftStr (trimRightStr s)

/-- Split at the first occurrence of `sep` (JS `indexOf` + two `slice`s);
`none` when `sep` does not occur. -/
def splitFirst (sep : Char) : Str → Option (Str × Str)
  | [] => none
  | c :: rest =>
    if c = sep then some ([], rest)
    else (splitFirst sep rest).map (fun p => (c :: p.1, p.2))

/- ---------------------------------------------------------------------
Path guard (`isSubPath` / `isAllowed`, server.js lines 47-58), together
with the parts of Node's `path.resolve` / `path.relative` (posix) that
they rely on.  Call sites pre-check `path.isAbsolute`, so the model
treats its input as rooted at `/`; on absolute inputs it coincides with
Node's behaviour.
--------------------------------------------------------------------- -/

/-- The `/`-separated segments of a path, empty segments dropped
(how Node tokenises a posix path). -/
def segsOf (s : Str) : List Str :=
  (s.splitOn '/').filter (fun seg => seg ≠ [])

/-- Node path normalization on the segment list of an absolute path:
`.` is dropped, `..` pops (and is dropped at the root). -/
def normSegs (segs : List Str) : List Str :=
  segs.foldl
    (fun acc s =>
      if s = ['.'] then acc
      else if s = ['.', '.'] then acc.dropLast
      else acc ++ [s]) []

/-- Normalized segments of a path string. -/
def pSegs (s : Str) : List Str := normSegs (segsOf s)

/-- Render a segment list as a canonical absolute path string
(`[] ↦ "/"`, the form `path.resolve` returns). -/
def renderAbs (segs : List Str) : Str :=
  match segs with
  | [] => ['/']
  | _ => '/' :: (List.intercalate ['/'] segs)

/-- Node `path.resolve` on an absolute path: normalize and re-render. -/
def resolveStr (s : Str) : Str := renderAbs (pSegs s)

/-- The segment list of Node posix `path.relative`: strip the longest
common prefix, then one `..` per remaining `from`-segment followed by the
remaining `to`-segments. -/
def relSegs : List Str → List Str → List Str
  | [], t => t
  | _ :: fs, [] => List.replicate (fs.length + 1) ['.', '.']
  | f :: fs, t :: ts =>
    if f = t then relSegs fs ts
    else List.replicate (fs.length + 1) ['.', '.'] ++ (t :: ts)

/-- Node `path.relative(from, to)` (posix, both arguments resolved first,
which on absolute inputs is `pSegs`). -/
def pathRelative (src dst : Str) : Str :=
  List.intercalate ['/'] (relSegs (pSegs src) (pSegs dst))

/-- `isSubPath(child, parent)` from the source: the relative path is
non-empty, does not start with `..`, and is not absolute. -/
def isSubPath (child parent : Str) : Bool :=
  let rel := pathRelative parent child
  rel ≠ [] && !(['.', '.'].isPrefixOf rel) && !(['/'].isPrefixOf rel)

/-- `isAllowed(p, allowedRoots)` from the source: resolve `p`, then accept
iff it equals a root byte-for-byte or `isSubPath` of a root. -/
def isAllowed (p : Str) (allowedRoots : List Str) : Bool :=
  let abs := resolveStr p
  allowedRoots.any (fun root => abs = root || isSubPath abs root)

/-- Modelled from the spec's words (for comparison only): `p` is, after
normalization, equal to or a strict descendant of `root`. -/
def specDescendantOrEqual (root p : Str) : Bool :=
  (pSegs root).isPrefixOf (pSegs p)

/-- Modelled from the spec's words (for comparison only): acceptance as
the claim states it — equal to or a strict descendant of some root. -/
def specAllowed (p : Str) (roots : List Str) : Bool :=
  roots.any (fun root => specDescendantOrEqual root p)

/-- What the code actually requires of a strict descendant: the first
segment below the root must not begin with two dots. -/
def cleanDescendant (root p : Str) : Bool :=
  let r := pSegs root
  let q := pSegs p
  r.isPrefixOf q && decide (r.length < q.length) &&
    !(['.', '.'].isPrefixOf (q.getD r.length []))

/- ---------------------------------------------------------------------
Credential store (`parseDotEnv` / `serializeDotEnv` / `readCredsEnv` /
`writeCredsEnv`, server.js lines 396-438).  A JS object used as a string
map is an insertion-ordered association list with in-place overwrite.
--------------------------------------------------------------------- -/

/-- JS `obj[k] = v`: overwrite in place if present, else append. -/
def envSet (m : List (Str × Str)) (k v : Str) : List (Str × Str) :=
  if m.any (fun kv => kv.1 = k) then
    m.map (fun kv => if kv.1 = k then (k, v) else kv)
  else m ++ [(k, v)]

/-- JS `obj[k]` (as an optional value). -/
def envGet (m : List (Str × Str)) (k : Str) : Option Str :=
  (m.find? (fun kv => kv.1 = k)).map (fun kv => kv.2)

/-- Quote stripping in `parseDotEnv`: if the value both starts and ends
with `"` (or both with `'`), drop one character from each side. -/
def stripQuotes (v : Str) : Str :=
  if (['"'].isPrefixOf v && ['"'].isSuffixOf v) ||
     (['\''].isPrefixOf v && ['\''].isSuffixOf v) then
    (v.drop 1).dropLast
  else v

/-- One iteration of the `parseDotEnv` loop: trim the line, skip blanks
and `#` comments and lines without `=`, split at the first `=`, trim the
key, strip surrounding quotes from the value. -/
def parseLine (line : Str) : Option (Str × Str) :=
  let trimmed := trimStr line
  if trimmed = [] then none
  else if ['#'].isPrefixOf trimmed then none
  else
    match splitFirst '=' trimmed with
    | none => none
    | some (k, v) => some (trimStr k, stripQuotes v)

/-- `parseDotEnv(text)`.  The source splits on the regex `\r?\n`; we split
on `'\n'` alone, which is observationally equal because each line is
immediately `trim`med (a dangling `\r` is whitespace). -/
def parseDotEnv (text : Str) : List (Str × Str) :=
  (text.splitOn '\n').foldl
    (fun env line =>
      match parseLine line with
      | some (k, v) => envSet env k v
      | none => env) []

/-- `serializeDotEnv(obj)`: `k=v` lines joined by `\n`, with a trailing
newline when non-empty. -/
def serializeDotEnv (m : List (Str × Str)) : Str :=
  match m with
  | [] => []
  | _ => List.intercalate ['\n'] (m.map (fun kv => kv.1 ++ '=' :: kv.2)) ++ ['\n']

/-- `readCredsEnv`: the `<creds>/.env` file content (`none` = unreadable /
missing, which yields the empty map). -/
def readCredsEnv (file : Option Str) : List (Str × Str) :=
  match file with
  | none => []
  | some text => parseDotEnv text

/-- `writeCredsEnv`: overlay `updates` on the current map (JS spread
`{...cur, ...updates}`), serialize, and return (new map, new file text). -/
def writeCredsEnv (file : Option Str) (updates : List (Str × Str)) :
    List (Str × Str) × Str :=
  let cur := readCredsEnv file
  let next := updates.foldl (fun m kv => envSet m kv.1 kv.2) cur
  (next, serializeDotEnv next)

/-- Well-formedness of a written key: round-trip-stable under the parser
(`trim`-stable, free of `=` and newlines, not starting a `#` comment). -/
def wfKey (k : Str) : Prop :=
  trimStr k = k ∧ '=' ∉ k ∧ '\n' ∉ k ∧ ['#'].isPrefixOf k = false

/-- Well-formedness of a written value: round-trip-stable under the parser
(no trailing whitespace, no newline, not quote-wrapped). -/
def wfVal (v : Str) : Prop :=
  trimRightStr v = v ∧ '\n' ∉ v ∧ stripQuotes v = v

instance (k : Str) : Decidable (wfKey k) := by unfold wfKey; infer_instance

instance (v : Str) : Decidable (wfVal v) := by unfold wfVal; infer_instance

/- ---------------------------------------------------------------------
Readiness checker (`checkReadiness`, server.js lines 444-479).
The filesystem is abstracted by `dirFull : Str → Bool`, the result of
`dirNonEmpty` on a full path; `path.join(credsPath, sub)` is modelled as
`credsPath ++ "/" ++ sub`.
--------------------------------------------------------------------- -/

/-- `path.join(a, b)` for the simple shapes used here. -/
def pathJoin (a b : Str) : Str := a ++ '/' :: b

/-- The structured `found` record of a readiness result. -/
structure FoundRec where
  envKeys : List Str
  dirs : List (Str × Bool)
  vertexPossible : Option Bool
deriving Repr, DecidableEq

/-- A readiness result (the `result` object of `checkReadiness`). -/
structure ReadinessRec where
  engine : Str
  ready : Bool
  reasons : List Str
  found : FoundRec
deriving Repr, DecidableEq

/-- JS truthiness of `env[k]`: present with a non-empty value. -/
def envTruthy (env : List (Str × Str)) (k : Str) : Bool :=
  match envGet env k with
  | some v => v ≠ []
  | none => false

/-- The inner `has(k)` helper: returns truthiness of `env[k]` and pushes
`k` onto `found.envKeys` when truthy. -/
def hasEnvKey (env : List (Str × Str)) (k : Str) (acc : List Str) :
    Bool × List Str :=
  let t := envTruthy env k
  (t, if t then acc ++ [k] else acc)

/-- The inner `existsDir(sub)` helper: consult the filesystem at
`<credsPath>/<sub>` and record the answer under `sub` in `found.dirs`. -/
def existsDirRec (dirFull : Str → Bool) (credsPath sub : Str)
    (acc : List (Str × Bool)) : Bool × List (Str × Bool) :=
  let ok := dirFull (pathJoin credsPath sub)
  (ok, acc ++ [(sub, ok)])

/-- `checkReadiness(engine, credsPath)` given the parsed `.env` map and
the filesystem oracle; `none` models the thrown errors (invalid engine /
creds not under allowed roots). -/
def checkReadiness (engine : Str) (credsPath : Str) (allowRoots : List Str)
    (file : Option Str) (dirFull : Str → Bool) : Option ReadinessRec :=
  if engine ≠ "codex".toList ∧ engine ≠ "gemini".toList ∧ engine ≠ "opencode".toList then none
  else if !isAllowed credsPath allowRoots then none
  else
    let env := readCredsEnv file
    if engine = "codex".toList then
      let (hasKey, keys) := hasEnvKey env "OPENAI_API_KEY".toList []
      let (hasDir, dirs) := existsDirRec dirFull credsPath "codex".toList []
      let ready := hasKey || hasDir
      some ⟨engine, ready,
        if ready then [] else ["Codex needs ChatGPT sign-in or OPENAI_API_KEY".toList],
        ⟨keys, dirs, none⟩⟩
    else if engine = "gemini".toList then
      let (hasKey, keys) := hasEnvKey env "GEMINI_API_KEY".toList []
      let (hasDir, dirs) := existsDirRec dirFull credsPath "gemini".toList []
      let (hasGcloud, dirs') := existsDirRec dirFull credsPath "gcloud".toList dirs
      let ready := hasKey || hasDir || hasGcloud
      some ⟨engine, ready,
        if ready then [] else ["Gemini needs API key, device login, or Vertex ADC".toList],
        ⟨keys, dirs', some hasGcloud⟩⟩
    else
      -- opencode: `has(..) || has(..) || has(..)` short-circuits, so only
      -- the first truthy key is pushed onto `found.envKeys`.
      let (k1, keys1) := hasEnvKey env "OPENAI_API_KEY".toList []
      let (ok, keys) :=
        if k1 then (true, keys1)
        else
          let (k2, keys2) := hasEnvKey env "ANTHROPIC_API_KEY".toList keys1
          if k2 then (true, keys2)
          else hasEnvKey env "GEMINI_API_KEY".toList keys2
      let (hasDir, dirs) := existsDirRec dirFull credsPath "opencode".toList []
      let ready := ok || hasDir
      some ⟨engine, ready,
        if ready then [] else ["OpenCode needs a provider API key".toList],
        ⟨keys, dirs, none⟩⟩

/- ---------------------------------------------------------------------
Run registry + Docker state (server.js lines 129-130, 540-568, 630-728,
861-893).  Each HTTP handler / stream callback becomes one function on an
explicit state.  Ids, statuses and labels are byte strings, so Lean
`String` suffices.  Listeners are identified by opaque numbers; an
operation's `closedListeners` lists the listeners it called `end()` on.
--------------------------------------------------------------------- -/

/-- A Docker container as the spawner sees it: id, labels, state. -/
structure ContainerR where
  cid : String
  labels : List (String × String)
  state : String
deriving Repr, DecidableEq

/-- An entry of the in-memory run registry (`runs` map). -/
structure RunR where
  id : String
  isExec : Bool
  status : String
  containerId : String
  listeners : List Nat
deriving Repr, DecidableEq

/-- The mutable state the handlers touch: the registry and the daemon. -/
structure SpawnerSt where
  runs : List RunR
  containers : List ContainerR
deriving Repr, DecidableEq

/-- An HTTP JSON response (the fields the handlers under study emit). -/
structure RespR where
  status : Nat
  ok : Bool
  removed : Option Bool
  fallback : Bool
  count : Option Nat
deriving Repr, DecidableEq

/-- Result of an HTTP handler: new state, response, lifecycle events
broadcast on the bus, listeners closed. -/
structure OpResult where
  st : SpawnerSt
  resp : RespR
  events : List String
  closedListeners : List Nat
deriving Repr, DecidableEq

/-- Result of a stream/timer callback (no HTTP response). -/
structure CbResult where
  st : SpawnerSt
  events : List String
  closedListeners : List Nat
deriving Repr, DecidableEq

/-- Container has label `k` with exact value `v` (Docker label filter). -/
def hasLabel (c : ContainerR) (k v : String) : Bool :=
  c.labels.any (fun kv => kv.1 = k && kv.2 = v)

/-- JS truthiness of `c.Labels[k]`: present with a non-empty value. -/
def labelTruthy (c : ContainerR) (k : String) : Bool :=
  match c.labels.find? (fun kv => kv.1 = k) with
  | some kv => kv.2 ≠ ""
  | none => false

/-- `runs.get(id)` (a JS Map keyed by the run id). -/
def findRun (st : SpawnerSt) (id : String) : Option RunR :=
  st.runs.find? (fun r => r.id = id)

/-- `runs.delete(id)`. -/
def deleteRun (rs : List RunR) (id : String) : List RunR :=
  rs.filter (fun r => r.id ≠ id)

/-- `docker stop` + `remove` (or `kill` + `remove`): the container is gone. -/
def removeContainer (cs : List ContainerR) (cid : String) : List ContainerR :=
  cs.filter (fun c => c.cid ≠ cid)

/-- Mutation of a captured run object (`run.status = s` plus
`run.listeners.clear()`), as visible through the registry. -/
def finishRun (rs : List RunR) (id : String) (s : String) : List RunR :=
  rs.map (fun r => if r.id = id then { r with status := s, listeners := [] } else r)

/-- The label-based fallback teardown shared by `DELETE /runs/:id`,
`POST /runs/:id/kill` and `POST /runs/:id/close` when the id is not in
the registry: stop/kill + force-remove every container labelled
`adz.runId=<id>`, answer `{ok:true, removed:<any>, fallback:true}`,
no lifecycle event.  (The 404 branch fires only when listing containers
itself throws, which the model leaves out of scope.) -/
def fallbackTeardown (st : SpawnerSt) (id : String) : OpResult :=
  let matched := st.containers.filter (fun c => hasLabel c "adz.runId" id)
  ⟨⟨st.runs, st.containers.filter (fun c => !hasLabel c "adz.runId" id)⟩,
   ⟨200, true, some (!matched.isEmpty), true, none⟩, [], []⟩

/-- `DELETE /runs/:id` (graceful stop, server.js lines 630-659).  For a
warm-exec run Ctrl-C and `exit\n` are written to the exec stream and the
warm container is untouched; for a fresh run the container is stopped and
force-removed.  Either way the listeners are ended, `run-stopped` is
broadcast, and the run is deleted from the registry. -/
def stopRunHandler (st : SpawnerSt) (id : String) : OpResult :=
  match findRun st id with
  | none => fallbackTeardown st id
  | some run =>
    if run.isExec then
      ⟨⟨deleteRun st.runs id, st.containers⟩,
       ⟨200, true, some true, false, none⟩, ["run-stopped"], run.listeners⟩
    else
      ⟨⟨deleteRun st.runs id, removeContainer st.containers run.containerId⟩,
       ⟨200, true, some true, false, none⟩, ["run-stopped"], run.listeners⟩

/-- `POST /runs/:id/kill` (server.js lines 662-697).  For a warm-exec run
only the engine processes inside the warm container are `pkill`ed (PID 1
is `sleep infinity`, so the container keeps running); for a fresh run the
container is killed and force-removed. -/
def killRunHandler (st : SpawnerSt) (id : String) : OpResult :=
  match findRun st id with
  | none => fallbackTeardown st id
  | some run =>
    if run.isExec then
      ⟨⟨deleteRun st.runs id, st.containers⟩,
       ⟨200, true, some true, false, none⟩, ["run-killed"], run.listeners⟩
    else
      ⟨⟨deleteRun st.runs id, removeContainer st.containers run.containerId⟩,
       ⟨200, true, some true, false, none⟩, ["run-killed"], run.listeners⟩

/-- `POST /runs/:id/close` (server.js lines 700-728).  For a warm-exec run
the attach stream is destroyed and a broader `pkill` is run inside the
warm container (again without touching PID 1); for a fresh run the
container is killed and force-removed. -/
def closeRunHandler (st : SpawnerSt) (id : String) : OpResult :=
  match findRun st id with
  | none => fallbackTeardown st id
  | some run =>
    if run.isExec then
      ⟨⟨deleteRun st.runs id, st.containers⟩,
       ⟨200, true, some true, false, none⟩, ["run-closed"], run.listeners⟩
    else
      ⟨⟨deleteRun st.runs id, removeContainer st.containers run.containerId⟩,
       ⟨200, true, some true, false, none⟩, ["run-closed"], run.listeners⟩

/-- The warm-exec stream `end` callback (server.js lines 315-321): set the
captured run's status to `exited`, end and clear its listeners, broadcast
`run-exited`.  The run is NOT deleted from the registry. -/
def streamEndHandler (st : SpawnerSt) (run : RunR) : CbResult :=
  ⟨⟨finishRun st.runs run.id "exited", st.containers⟩,
   ["run-exited"], run.listeners⟩

/-- The fresh-run `container.wait()` continuation (server.js lines
381-390): resolve the final status (the container is no longer running,
so `resolveStatus` yields its non-running state, e.g. `exited`), end and
clear the listeners, broadcast `run-exited`.  The run is NOT deleted from
the registry; the container disappears via `AutoRemove: true`. -/
def containerExitHandler (st : SpawnerSt) (run : RunR) : CbResult :=
  ⟨⟨finishRun st.runs run.id "exited", removeContainer st.containers run.containerId⟩,
   ["run-exited"], run.listeners⟩

/-- `autoStopRun` (idle reaper, server.js lines 861-879): end and clear
the listeners, then for warm-exec write Ctrl-C + `exit\n` (container
untouched) and for fresh stop + force-remove the container; set status
`stopped` and broadcast `run-idle-stopped`.  The run is NOT deleted from
the registry. -/
def autoStopRun (st : SpawnerSt) (run : RunR) : CbResult :=
  if run.isExec then
    ⟨⟨finishRun st.runs run.id "stopped", st.containers⟩,
     ["run-idle-stopped"], run.listeners⟩
  else
    ⟨⟨finishRun st.runs run.id "stopped", removeContainer st.containers run.containerId⟩,
     ["run-idle-stopped"], run.listeners⟩

/-- `listAdzContainers()` membership: `Labels['adz.engine'] ||
Labels['adz.warm']` is truthy. -/
def isAdzContainer (c : ContainerR) : Bool :=
  labelTruthy c "adz.engine" || labelTruthy c "adz.warm"

/-- `c.Labels['adz.warm'] === 'true'`. -/
def isWarmLabelled (c : ContainerR) : Bool :=
  hasLabel c "adz.warm" "true"

/-- A container targeted by `stop-all` / `kill-all`: an adz container,
and not a warm one unless `includeWarm`. -/
def bulkTarget (includeWarm : Bool) (c : ContainerR) : Bool :=
  isAdzContainer c && (includeWarm || !isWarmLabelled c)

/-- `POST /runs/stop-all` (server.js lines 540-553): stop + force-remove
every targeted container, then `runs.clear()` unconditionally.  No
lifecycle event is broadcast and no listener is closed. -/
def stopAllHandler (st : SpawnerSt) (includeWarm : Bool) : OpResult :=
  let targets := st.containers.filter (bulkTarget includeWarm)
  ⟨⟨[], st.containers.filter (fun c => !bulkTarget includeWarm c)⟩,
   ⟨200, true, none, false, some targets.length⟩, [], []⟩

/-- `POST /runs/kill-all` (server.js lines 555-568): kill + force-remove
every targeted container, then `runs.clear()` unconditionally. -/
def killAllHandler (st : SpawnerSt) (includeWarm : Bool) : OpResult :=
  let targets := st.containers.filter (bulkTarget includeWarm)
  ⟨⟨[], st.containers.filter (fun c => !bulkTarget includeWarm c)⟩,
   ⟨200, true, none, false, some targets.length⟩, [], []⟩

/-- The five terminal lifecycle event names. -/
def terminalEventNames : List String :=
  ["run-exited", "run-stopped", "run-killed", "run-idle-stopped", "run-closed"]

/- ---------------------------------------------------------------------
Warm pool lookup (`labelsForWarm` / `findWarmContainer`, server.js lines
64-90).
--------------------------------------------------------------------- -/

/-- A mount fingerprint as the warm pool uses it. -/
structure Fingerprint where
  engine : String
  workspace : String
  creds : String
  readOnly : Bool
  uidgid : Option String
deriving Repr, DecidableEq

/-- `labelsForWarm(...)`: the labels stamped on a warm container. -/
def labelsForWarm (fp : Fingerprint) : List (String × String) :=
  [("adz.warm", "true"),
   ("adz.engine", fp.engine),
   ("adz.workspace", fp.workspace),
   ("adz.creds", fp.creds),
   ("adz.readonly", if fp.readOnly then "1" else "0"),
   ("adz.uidgid", fp.uidgid.getD "")]

/-- The label filters `findWarmContainer` passes to `listContainers`
(the same six key=value pairs, built inline in the source). -/
def warmFilterLabels (fp : Fingerprint) : List (String × String) :=
  [("adz.warm", "true"),
   ("adz.engine", fp.engine),
   ("adz.workspace", fp.workspace),
   ("adz.creds", fp.creds),
   ("adz.readonly", if fp.readOnly then "1" else "0"),
   ("adz.uidgid", fp.uidgid.getD "")]

/-- Docker-side filter semantics: every requested `k=v` is among the
container's labels. -/
def matchesLabelFilters (c : ContainerR) (fl : List (String × String)) : Bool :=
  fl.all (fun kv => c.labels.any (fun l => l = kv))

/-- `findWarmContainer(fp)`: list all containers matching the label
filters, then take the first whose state is `running`. -/
def findWarmContainer (cs : List ContainerR) (fp : Fingerprint) : Option ContainerR :=
  (cs.filter (fun c => matchesLabelFilters c (warmFilterLabels fp))).find?
    (fun c => c.state = "running")

/- ---------------------------------------------------------------------
SSE framing of `GET /runs/:id/logs` (server.js lines 588-614) and of the
per-chunk listener fan-out (lines 293-304 / 354-373).
--------------------------------------------------------------------- -/

/-- One `res.write` line of an SSE stream. -/
inductive SSEWrite where
  | eventField (name : Str)
  | dataField (content : Str)
  | blank
deriving Repr, DecidableEq

/-- `sseSend(res, data)`: one `data:` line per `\n`-separated line of the
payload (JS `split(/\n/)`), then a blank line (one frame, default event
name, raw text). -/
def sseSendWrites (data : Str) : List SSEWrite :=
  ((data.splitOn '\n').map SSEWrite.dataField) ++ [SSEWrite.blank]

/-- What the attach-stream `data` handler writes to one listener per
chunk: `event: chunk` + base-64 data + blank, then a second frame
`data: b64:<base64>` + blank.  (Base-64 text never contains `\n`, so each
`data` payload is a single line.) -/
def chunkListenerWrites (b64 : Str) : List SSEWrite :=
  [SSEWrite.eventField "chunk".toList, SSEWrite.dataField b64, SSEWrite.blank,
   SSEWrite.dataField ("b64:".toList ++ b64), SSEWrite.blank]

/-- The initial transcript-tail write of `GET /runs/:id/logs`. -/
def logsTailWrites (tailText : Str) : List SSEWrite :=
  sseSendWrites tailText

/-- `size = Math.min(stat.size, 64 * 1024)`: how many tail bytes are read. -/
def tailReadSize (fileSize : Nat) : Nat := min fileSize (64 * 1024)

/-- An SSE frame: optional event name and the data lines, as a compliant
client groups the written lines at each blank separator. -/
structure SSEFrame where
  eventName : Option Str
  dataLines : List Str
deriving Repr, DecidableEq

/-- Frame grouping: accumulate fields until a blank line dispatches. -/
def framesGo (ev : Option Str) (acc : List Str) :
    List SSEWrite → List SSEFrame
  | [] => []
  | SSEWrite.eventField n :: rest => framesGo (some n) acc rest
  | SSEWrite.dataField d :: rest => framesGo ev (acc ++ [d]) rest
  | SSEWrite.blank :: rest => ⟨ev, acc⟩ :: framesGo none [] rest

/-- The frames a client sees in a write sequence. -/
def framesOf (ws : List SSEWrite) : List SSEFrame := framesGo none [] ws

/- ---------------------------------------------------------------------
Concrete states used by counterexamples and witnesses.
--------------------------------------------------------------------- -/

/-- The fingerprint of the demo warm container. -/
def demoFp : Fingerprint := ⟨"codex", "/ws", "/cr", true, none⟩

/-- A warm container for `demoFp`. -/
def demoWarmContainer : ContainerR := ⟨"w1", labelsForWarm demoFp, "running"⟩

/-- A registered warm-exec run attached to the demo warm container. -/
def demoWarmRun : RunR := ⟨"r1", true, "running", "w1", [0]⟩

/-- A fresh-run container labelled with its run id. -/
def demoFreshContainer : ContainerR :=
  ⟨"c2", [("adz.engine", "codex"), ("adz.workspace", "/ws"),
          ("adz.creds", "/cr"), ("adz.runId", "r2")], "running"⟩

/-- A registered fresh run. -/
def demoFreshRun : RunR := ⟨"r2", false, "running", "c2", [1]⟩

/-- A spawner state with one warm-exec run and one fresh run. -/
def demoSt : SpawnerSt :=
  ⟨[demoWarmRun, demoFreshRun], [demoWarmContainer, demoFreshContainer]⟩

theorem mem_splitOnP_not_p (p : Char → Bool) (s : Str) :
    ∀ x ∈ s.splitOnP p, ∀ c ∈ x, ¬ p c = true := by
  induction s with
  | nil =>
    intro x hx
    rw [List.splitOnP_nil] at hx
    simp at hx
    subst hx
    simp
  | cons a as ih =>
    intro x hx
    rw [List.splitOnP_cons] at hx
    by_cases hp : p a
    · rw [if_pos hp] at hx
      rcases List.mem_cons.mp hx with h | h
      · subst h; simp
      · exact ih x h
    · rw [if_neg hp] at hx
      cases h' : as.splitOnP p with
      | nil => exact absurd h' (List.splitOnP_ne_nil p as)
      | cons hd tl =>
        rw [h'] at hx
        simp only [List.modifyHead, List.mem_cons] at hx
        rcases hx with h | h
        · subst h
          intro c hc
          rcases List.mem_cons.mp hc with rfl | hc2
          · exact hp
          · exact ih hd (by rw [h']; exact List.mem_cons_self _ _) c hc2
        · exact ih x (by rw [h']; exact List.mem_cons_of_mem _ h)

theorem segsOf_good (s : Str) : ∀ x ∈ segsOf s, x ≠ [] ∧ '/' ∉ x := by
  intro x hx
  simp only [segsOf, List.mem_filter] at hx
  refine ⟨by simpa using hx.2, ?_⟩
  intro hc
  have := mem_splitOnP_not_p (· == '/') s x hx.1 '/' hc
  simp at this

theorem normSegs_mem (L : List Str) :
    ∀ x ∈ normSegs L, x ∈ L ∧ x ≠ ['.'] ∧ x ≠ ['.', '.'] := by
  suffices h : ∀ (acc : List Str),
      ∀ x ∈ L.foldl (fun acc s =>
        if s = ['.'] then acc
        else if s = ['.', '.'] then acc.dropLast
        else acc ++ [s]) acc,
      x ∈ acc ∨ (x ∈ L ∧ x ≠ ['.'] ∧ x ≠ ['.', '.']) by
    intro x hx
    rcases h [] x hx with h' | h'
    · simp at h'
    · exact h'
  induction L with
  | nil => intro acc x hx; exact Or.inl hx
  | cons s L' ih =>
    intro acc x hx
    rw [List.foldl_cons] at hx
    rcases ih _ x hx with h' | h'
    · by_cases h1 : s = ['.']
      · rw [if_pos h1] at h'
        exact Or.inl h'
      · rw [if_neg h1] at h'
        by_cases h2 : s = ['.', '.']
        · rw [if_pos h2] at h'
          exact Or.inl (List.dropLast_subset _ h')
        · rw [if_neg h2] at h'
          rcases List.mem_append.mp h' with h'' | h''
          · exact Or.inl h''
          · simp at h''
            subst h''
            exact Or.inr ⟨List.mem_cons_self _ _, h1, h2⟩
    · exact Or.inr ⟨List.mem_cons_of_mem _ h'.1, h'.2⟩

theorem normSegs_eq_self (L : List Str)
    (h : ∀ x ∈ L, x ≠ ['.'] ∧ x ≠ ['.', '.']) : normSegs L = L := by
  suffices hgen : ∀ (acc : List Str),
      L.foldl (fun acc s =>
        if s = ['.'] then acc
        else if s = ['.', '.'] then acc.dropLast
        else acc ++ [s]) acc = acc ++ L by
    simpa [normSegs] using hgen []
  induction L with
  | nil => intro acc; simp
  | cons s L' ih =>
    intro acc
    rw [List.foldl_cons]
    have hs := h s (List.mem_cons_self _ _)
    rw [if_neg hs.1, if_neg hs.2]
    rw [ih (fun x hx => h x (List.mem_cons_of_mem _ hx))]
    simp

theorem segsOf_renderAbs (L : List Str) (h : ∀ x ∈ L, x ≠ [] ∧ '/' ∉ x) :
    segsOf (renderAbs L) = L := by
  cases L with
  | nil => decide
  | cons a as =>
    have hne : (a :: as) ≠ ([] : List Str) := by simp
    have hx : ∀ l ∈ a :: as, '/' ∉ l := fun l hl => (h l hl).2
    have hsplit : (('/' :: List.intercalate ['/'] (a :: as)).splitOn '/') =
        [] :: (a :: as) := by
      have hconv : (List.intercalate ['/'] (a :: as)).splitOnP (· == '/') =
          (List.intercalate ['/'] (a :: as)).splitOn '/' := rfl
      rw [List.splitOn, List.splitOnP_cons, if_pos (by simp), hconv,
          List.splitOn_intercalate _ '/' hx hne]
    simp only [segsOf, renderAbs]
    rw [hsplit]
    rw [List.filter_cons]
    simp only [ne_eq, decide_not]
    rw [List.filter_eq_self.mpr]
    · simp
    · intro x hx'
      simpa using (h x hx').1

theorem pSegs_resolveStr (s : Str) : pSegs (resolveStr s) = pSegs s := by
  have hgood : ∀ x ∈ normSegs (segsOf s), x ≠ [] ∧ '/' ∉ x := by
    intro x hx
    exact segsOf_good s x (normSegs_mem _ x hx).1
  have hnodots : ∀ x ∈ normSegs (segsOf s), x ≠ ['.'] ∧ x ≠ ['.', '.'] := by
    intro x hx
    exact (normSegs_mem _ x hx).2
  show normSegs (segsOf (renderAbs (normSegs (segsOf s)))) = normSegs (segsOf s)
  rw [segsOf_renderAbs _ hgood, normSegs_eq_self _ hnodots]

theorem resolveStr_eq_iff (p r : Str) (hc : r = resolveStr r) :
    resolveStr p = r ↔ pSegs p = pSegs r := by
  constructor
  · intro h
    have h2 := congrArg pSegs h
    rwa [pSegs_resolveStr] at h2
  · intro h
    rw [hc]
    show renderAbs (pSegs p) = resolveStr r
    rw [h]
    rfl

theorem relSegs_eq_drop (F T : List Str) (h : F <+: T) :
    relSegs F T = T.drop F.length := by
  induction F generalizing T with
  | nil => simp [relSegs]
  | cons f fs ih =>
    obtain ⟨t, rfl⟩ := h
    show relSegs (f :: fs) (f :: (fs ++ t)) = _
    rw [relSegs, if_pos rfl, ih (fs ++ t) ⟨t, rfl⟩]
    simp

theorem relSegs_of_not_prefix (F T : List Str) (h : ¬ F <+: T) :
    ∃ rest, relSegs F T = ['.', '.'] :: rest := by
  induction F generalizing T with
  | nil => exact absurd List.nil_prefix h
  | cons f fs ih =>
    cases T with
    | nil =>
      refine ⟨List.replicate fs.length ['.', '.'], ?_⟩
      rw [relSegs, List.replicate_succ]
    | cons t ts =>
      by_cases hf : f = t
      · subst hf
        have h2 : ¬ fs <+: ts := fun hp => h (List.cons_prefix_cons.mpr ⟨rfl, hp⟩)
        obtain ⟨rest, hrest⟩ := ih ts h2
        refine ⟨rest, ?_⟩
        rw [relSegs, if_pos rfl, hrest]
      · refine ⟨List.replicate fs.length ['.', '.'] ++ (t :: ts), ?_⟩
        rw [relSegs, if_neg hf, List.replicate_succ]
        simp

theorem intercalate_slash_cons (e : Str) (r : Str) (rs : List Str) :
    List.intercalate ['/'] (e :: r :: rs) =
      e ++ '/' :: List.intercalate ['/'] (r :: rs) := by
  simp only [List.intercalate, List.intersperse_cons_cons, List.flatten]
  simp

theorem intercalate_single (e : Str) : List.intercalate ['/'] [e] = e := by
  simp [List.intercalate, List.intersperse, List.flatten]

theorem intercalate_ne_nil_of_head (e : Str) (rest : List Str) (he : e ≠ []) :
    List.intercalate ['/'] (e :: rest) ≠ [] := by
  cases rest with
  | nil => rwa [intercalate_single]
  | cons r rs =>
    rw [intercalate_slash_cons]
    cases e with
    | nil => exact absurd rfl he
    | cons c cs => simp

theorem dotdot_prefix_intercalate (e : Str) (rest : List Str) (he : e ≠ []) :
    ['.', '.'].isPrefixOf (List.intercalate ['/'] (e :: rest)) =
      ['.', '.'].isPrefixOf e := by
  cases rest with
  | nil => rw [intercalate_single]
  | cons r rs =>
    rw [intercalate_slash_cons]
    cases e with
    | nil => exact absurd rfl he
    | cons c cs =>
      cases cs with
      | nil =>
        show (['.', '.'].isPrefixOf (c :: '/' :: _)) = (['.', '.'].isPrefixOf [c])
        simp [List.isPrefixOf]
      | cons c2 cs2 =>
        show (['.', '.'].isPrefixOf (c :: c2 :: _)) = _
        simp [List.isPrefixOf]

theorem slash_prefix_intercalate (e : Str) (rest : List Str) (he : e ≠ [])
    (hs : '/' ∉ e) :
    ['/'].isPrefixOf (List.intercalate ['/'] (e :: rest)) = false := by
  cases e with
  | nil => exact absurd rfl he
  | cons c cs =>
    have hc : c ≠ '/' := fun hc => hs (hc ▸ List.mem_cons_self c cs)
    cases rest with
    | nil =>
      rw [intercalate_single]
      simp [List.isPrefixOf]
      exact fun h => hc h.symm
    | cons r rs =>
      rw [intercalate_slash_cons]
      show ['/'].isPrefixOf (c :: _) = false
      simp [List.isPrefixOf]
      exact fun h => hc h.symm

theorem pSegs_good (p : Str) : ∀ x ∈ pSegs p, x ≠ [] ∧ '/' ∉ x := by
  intro x hx
  exact segsOf_good p x (normSegs_mem _ x hx).1

theorem isSubPath_resolve (p r : Str) :
    isSubPath (resolveStr p) r = cleanDescendant r p := by
  simp only [isSubPath, pathRelative, pSegs_resolveStr, cleanDescendant]
  by_cases hpre : pSegs r <+: pSegs p
  · rw [relSegs_eq_drop _ _ hpre]
    cases hdrop : (pSegs p).drop (pSegs r).length with
    | nil =>
      have hlen : (pSegs p).length ≤ (pSegs r).length :=
        List.drop_eq_nil_iff.mp hdrop
      have hnil : List.intercalate ['/'] ([] : List Str) = [] := rfl
      rw [hnil]
      simp [List.isPrefixOf_iff_prefix, hpre, Nat.not_lt.mpr hlen]
    | cons e rest =>
      have he : e ∈ pSegs p := by
        have : e ∈ (pSegs p).drop (pSegs r).length := by
          rw [hdrop]; exact List.mem_cons_self _ _
        exact List.mem_of_mem_drop this
      have hegood := pSegs_good p e he
      have hgetD : (pSegs p).getD (pSegs r).length [] = e := by
        rw [List.getD_eq_getElem?_getD, ← List.head?_drop, hdrop]
        rfl
      have hlt : (pSegs r).length < (pSegs p).length := by
        by_contra hle
        rw [List.drop_eq_nil_iff.mpr (Nat.le_of_not_lt hle)] at hdrop
        exact List.noConfusion hdrop
      rw [dotdot_prefix_intercalate e rest hegood.1,
          slash_prefix_intercalate e rest hegood.1 hegood.2]
      have hpb : (pSegs r).isPrefixOf (pSegs p) = true :=
        List.isPrefixOf_iff_prefix.mpr hpre
      rw [hpb, hgetD]
      simp [intercalate_ne_nil_of_head e rest hegood.1, hlt]
  · obtain ⟨rest, hrel⟩ := relSegs_of_not_prefix _ _ hpre
    rw [hrel]
    rw [dotdot_prefix_intercalate ['.', '.'] rest (by simp)]
    have : (['.', '.'] : Str).isPrefixOf ['.', '.'] = true := by decide
    rw [this]
    have h2 : (pSegs r).isPrefixOf (pSegs p) = false := by
      rw [Bool.eq_false_iff]
      intro hcon
      exact hpre (List.isPrefixOf_iff_prefix.mp hcon)
    rw [h2]
    simp

theorem isAllowed_iff_aux (p r : Str) (hc : r = resolveStr r) :
    (resolveStr p = r ∨ isSubPath (resolveStr p) r = true) ↔
      (pSegs p = pSegs r ∨ cleanDescendant r p = true) := by
  rw [isSubPath_resolve, resolveStr_eq_iff p r hc]

theorem dropWhile_append_pivot (p : Char → Bool) (a b : Str) (c : Char)
    (hc : ¬ p c = true) :
    (a ++ c :: b).dropWhile p = a.dropWhile p ++ c :: b := by
  induction a with
  | nil => simp [List.dropWhile_cons, hc]
  | cons x xs ih =>
    by_cases hx : p x <;> simp [List.dropWhile_cons, hx, ih]

theorem trimRight_append_pivot (a b : Str) (c : Char) (hc : isWsChar c = false) :
    trimRightStr (a ++ c :: b) = a ++ c :: trimRightStr b := by
  show ((a ++ c :: b).reverse.dropWhile isWsChar).reverse = _
  have h1 : (a ++ c :: b).reverse = b.reverse ++ c :: a.reverse := by
    simp
  rw [h1, dropWhile_append_pivot isWsChar b.reverse a.reverse c (by simp [hc])]
  simp [trimRightStr]

theorem head_not_ws_of_trimLeft (x : Char) (xs : Str)
    (h : trimLeftStr (x :: xs) = x :: xs) : isWsChar x = false := by
  by_cases hx : isWsChar x = true
  · rw [trimLeftStr, List.dropWhile_cons, if_pos hx] at h
    have hlen := congrArg List.length h
    have hle := (List.dropWhile_sublist (l := xs) isWsChar).length_le
    simp at hlen
    omega
  · simpa using hx

theorem trimLeft_append_pivot (k w : Str) (c : Char) (hc : isWsChar c = false)
    (hk : trimLeftStr k = k) : trimLeftStr (k ++ c :: w) = k ++ c :: w := by
  cases k with
  | nil => simp [trimLeftStr, List.dropWhile_cons, hc]
  | cons x xs =>
    have hx := head_not_ws_of_trimLeft x xs hk
    simp [trimLeftStr, List.dropWhile_cons, hx]

theorem trimRight_isPrefix_self (k : Str) : trimRightStr k <+: k := by
  rw [← List.reverse_suffix]
  show (k.reverse.dropWhile isWsChar).reverse.reverse <:+ _
  rw [List.reverse_reverse]
  exact List.dropWhile_suffix isWsChar

theorem trim_stable_split (k : Str) (h : trimStr k = k) :
    trimLeftStr k = k ∧ trimRightStr k = k := by
  have hlen : k.length ≤ (trimLeftStr (trimRightStr k)).length := by
    have := congrArg List.length h
    simp only [trimStr] at this
    omega
  have h2 : (trimLeftStr (trimRightStr k)).length ≤ (trimRightStr k).length :=
    (List.dropWhile_sublist isWsChar).length_le
  have h1 : (trimRightStr k).length ≤ k.length := (trimRight_isPrefix_self k).length_le
  have hR : trimRightStr k = k := (trimRight_isPrefix_self k).eq_of_length (by omega)
  refine ⟨?_, hR⟩
  rw [trimStr, hR] at h
  exact h

theorem trimRight_cons_not_ws (c : Char) (t : Str) (hc : isWsChar c = false) :
    trimRightStr (c :: t) = c :: trimRightStr t := by
  simpa using trimRight_append_pivot [] t c hc

theorem splitFirst_append (k v : Str) (hk : '=' ∉ k) :
    splitFirst '=' (k ++ '=' :: v) = some (k, v) := by
  induction k with
  | nil => simp [splitFirst]
  | cons c cs ih =>
    have hc : ¬ c = '=' := fun h => hk (h ▸ List.mem_cons_self c cs)
    rw [List.cons_append, splitFirst, if_neg hc,
        ih (fun h => hk (List.mem_cons_of_mem _ h))]
    rfl

theorem splitFirst_eq (sep : Char) (s : Str) :
    ∀ a b : Str, splitFirst sep s = some (a, b) → s = a ++ sep :: b ∧ sep ∉ a := by
  induction s with
  | nil => intro a b h; simp [splitFirst] at h
  | cons c cs ih =>
    intro a b h
    rw [splitFirst] at h
    by_cases hc : c = sep
    · rw [if_pos hc] at h
      simp at h
      obtain ⟨rfl, rfl⟩ := h
      subst hc
      simp
    · rw [if_neg hc] at h
      cases hsf : splitFirst sep cs with
      | none => rw [hsf] at h; simp at h
      | some p =>
        rw [hsf] at h
        simp at h
        obtain ⟨rfl, rfl⟩ := h
        obtain ⟨heq, hmem⟩ := ih p.1 p.2 hsf
        constructor
        · rw [List.cons_append, ← heq]
        · intro hin
          rcases List.mem_cons.mp hin with rfl | hin2
          · exact hc rfl
          · exact hmem hin2

theorem hash_prefix_append (c : Char) (cs w : Str)
    (hhash : ['#'].isPrefixOf (c :: cs) = false) :
    ['#'].isPrefixOf (c :: cs ++ w) = false := by
  simp [List.isPrefixOf] at hhash ⊢
  exact hhash

theorem hash_prefix_eq_cons (w : Str) :
    ['#'].isPrefixOf ('=' :: w) = false := by
  simp [List.isPrefixOf]

theorem parseLine_append (k v : Str) (hk : wfKey k) :
    parseLine (k ++ '=' :: v) = some (k, stripQuotes (trimRightStr v)) := by
  obtain ⟨htrim, heqm, -, hhash⟩ := hk
  obtain ⟨hL, -⟩ := trim_stable_split k htrim
  have h1 : trimStr (k ++ '=' :: v) = k ++ '=' :: trimRightStr v := by
    rw [trimStr, trimRight_append_pivot k v '=' (by decide),
        trimLeft_append_pivot k (trimRightStr v) '=' (by decide) hL]
  have h2 : (k ++ '=' :: trimRightStr v) ≠ [] := by simp
  have h3 : ['#'].isPrefixOf (k ++ '=' :: trimRightStr v) = false := by
    cases k with
    | nil => simpa using hash_prefix_eq_cons (trimRightStr v)
    | cons c cs => exact hash_prefix_append c cs _ hhash
  have h4 : splitFirst '=' (k ++ '=' :: trimRightStr v) = some (k, trimRightStr v) :=
    splitFirst_append k (trimRightStr v) heqm
  simp only [parseLine, h1, h2, h3, h4, if_neg, Bool.false_eq_true, if_false, htrim]

theorem intercalate_sep_cons (sep : Char) (e r : Str) (rs : List Str) :
    List.intercalate [sep] (e :: r :: rs) =
      e ++ sep :: List.intercalate [sep] (r :: rs) := by
  simp only [List.intercalate, List.intersperse_cons_cons, List.flatten]
  simp

theorem intercalate_sep_single (sep : Char) (e : Str) :
    List.intercalate [sep] [e] = e := by
  simp [List.intercalate, List.intersperse, List.flatten]

theorem intercalate_append_empty (sep : Char) (L : List Str) (hL : L ≠ []) :
    List.intercalate [sep] (L ++ [[]]) = List.intercalate [sep] L ++ [sep] := by
  induction L with
  | nil => exact absurd rfl hL
  | cons x xs ih =>
    cases xs with
    | nil => simp [intercalate_sep_cons, intercalate_sep_single]
    | cons y ys =>
      rw [List.cons_append, List.cons_append,
          intercalate_sep_cons sep x y (ys ++ [[]]), ← List.cons_append,
          ih (by simp), intercalate_sep_cons]
      simp

theorem serialize_eq_intercalate (m : List (Str × Str)) (hm : m ≠ []) :
    serializeDotEnv m =
      List.intercalate ['\n'] ((m.map (fun kv => kv.1 ++ '=' :: kv.2)) ++ [[]]) := by
  cases m with
  | nil => exact absurd rfl hm
  | cons kv tl =>
    rw [intercalate_append_empty '\n' _ (by simp)]
    rfl

theorem splitOn_serialize (m : List (Str × Str))
    (hk : ∀ kv ∈ m, '\n' ∉ kv.1) (hv : ∀ kv ∈ m, '\n' ∉ kv.2) (hm : m ≠ []) :
    (serializeDotEnv m).splitOn '\n' =
      (m.map (fun kv => kv.1 ++ '=' :: kv.2)) ++ [[]] := by
  rw [serialize_eq_intercalate m hm]
  refine List.splitOn_intercalate _ '\n' ?_ (by simp)
  intro l hl
  rcases List.mem_append.mp hl with h | h
  · obtain ⟨kv, hkv, rfl⟩ := List.mem_map.mp h
    intro hin
    rcases List.mem_append.mp hin with h2 | h2
    · exact hk kv hkv h2
    · rcases List.mem_cons.mp h2 with h3 | h3
      · exact absurd h3 (by decide)
      · exact hv kv hkv h3
  · simp at h
    subst h
    simp

theorem envSet_not_mem (m : List (Str × Str)) (k v : Str)
    (h : ∀ kv ∈ m, kv.1 ≠ k) : envSet m k v = m ++ [(k, v)] := by
  have hfalse : m.any (fun kv => kv.1 = k) = false := by
    rw [List.any_eq_false]
    intro kv hkv
    simpa using h kv hkv
  simp only [envSet, hfalse, Bool.false_eq_true, if_false]

theorem foldl_envSet_fresh (pairs : List (Str × Str)) :
    ∀ (acc : List (Str × Str)),
      ((pairs.map Prod.fst).Nodup) →
      (∀ kv ∈ pairs, ∀ kv' ∈ acc, kv.1 ≠ kv'.1) →
      pairs.foldl (fun env kv => envSet env kv.1 kv.2) acc = acc ++ pairs := by
  induction pairs with
  | nil => intro acc _ _; simp
  | cons kv tl ih =>
    intro acc hnd hdisj
    simp only [List.foldl_cons]
    have hset : envSet acc kv.1 kv.2 = acc ++ [kv] := by
      rw [envSet_not_mem acc kv.1 kv.2
        (fun kv' hkv' => (hdisj kv (List.mem_cons_self _ _) kv' hkv').symm)]
    have hdisj2 : ∀ x ∈ tl, ∀ kv' ∈ acc ++ [kv], x.1 ≠ kv'.1 := by
      intro x hx kv' hk'
      rcases List.mem_append.mp hk' with h | h
      · exact hdisj x (List.mem_cons_of_mem _ hx) kv' h
      · simp only [List.mem_singleton] at h
        subst h
        simp only [List.map_cons, List.nodup_cons] at hnd
        intro hxe
        exact hnd.1 (hxe ▸ List.mem_map_of_mem Prod.fst hx)
    rw [hset, ih (acc ++ [kv]) (by simpa using hnd.of_cons) hdisj2]
    simp

theorem foldl_parse_lines (m : List (Str × Str)) :
    ∀ (acc : List (Str × Str)), (∀ kv ∈ m, wfKey kv.1) →
      (m.map (fun kv => kv.1 ++ '=' :: kv.2)).foldl
          (fun env line =>
            match parseLine line with
            | some (k, v) => envSet env k v
            | none => env) acc =
        (m.map (fun kv => (kv.1, stripQuotes (trimRightStr kv.2)))).foldl
          (fun env kv => envSet env kv.1 kv.2) acc := by
  induction m with
  | nil => intro acc _; rfl
  | cons kv tl ih =>
    intro acc hwk
    simp only [List.map_cons, List.foldl_cons]
    rw [parseLine_append kv.1 kv.2 (hwk kv (List.mem_cons_self _ _))]
    exact ih _ (fun x hx => hwk x (List.mem_cons_of_mem _ hx))

theorem parse_serialize (m : List (Str × Str))
    (hwk : ∀ kv ∈ m, wfKey kv.1) (hnl : ∀ kv ∈ m, '\n' ∉ kv.2)
    (hnd : (m.map Prod.fst).Nodup) :
    parseDotEnv (serializeDotEnv m) =
      m.map (fun kv => (kv.1, stripQuotes (trimRightStr kv.2))) := by
  cases hm : m with
  | nil => rfl
  | cons kv0 tl0 =>
    subst hm
    rw [parseDotEnv, splitOn_serialize _ (fun kv hkv => (hwk kv hkv).2.2.1) hnl
        (by simp)]
    rw [List.foldl_append]
    have hlast : parseLine [] = none := rfl
    simp only [List.foldl_cons, List.foldl_nil, hlast]
    rw [foldl_parse_lines _ [] hwk]
    rw [foldl_envSet_fresh _ [] (by simpa using hnd) (by simp)]
    simp

theorem find?_map_envSet_self (tl : List (Str × Str)) (k v : Str)
    (hany : tl.any (fun kv => kv.1 = k) = true) :
    (tl.map (fun kv => if kv.1 = k then (k, v) else kv)).find?
        (fun kv => kv.1 = k) = some (k, v) := by
  induction tl with
  | nil => simp at hany
  | cons kv2 tl2 ih =>
    rw [List.map_cons]
    by_cases hk2 : kv2.1 = k
    · rw [if_pos hk2, List.find?_cons_of_pos _ (by simp)]
    · rw [if_neg hk2, List.find?_cons_of_neg _ (by simpa using hk2)]
      apply ih
      simp only [List.any_cons] at hany
      rcases Bool.or_eq_true_iff.mp hany with h2 | h2
      · exact absurd (by simpa using h2) hk2
      · exact h2

theorem find?_map_envSet_ne (tl : List (Str × Str)) (k v k' : Str)
    (h : ¬ (k = k')) :
    (tl.map (fun kv => if kv.1 = k then (k, v) else kv)).find?
        (fun kv => kv.1 = k') = tl.find? (fun kv => kv.1 = k') := by
  induction tl with
  | nil => rfl
  | cons kv2 tl2 ih =>
    rw [List.map_cons]
    by_cases hk2 : kv2.1 = k
    · have hne2 : ¬ (kv2.1 = k') := by rw [hk2]; exact h
      rw [if_pos hk2, List.find?_cons_of_neg _ (by simpa using h),
          List.find?_cons_of_neg _ (by simpa using hne2), ih]
    · by_cases hk' : kv2.1 = k'
      · rw [if_neg hk2, List.find?_cons_of_pos _ (by simpa using hk'),
            List.find?_cons_of_pos _ (by simpa using hk')]
      · rw [if_neg hk2, List.find?_cons_of_neg _ (by simpa using hk'),
            List.find?_cons_of_neg _ (by simpa using hk'), ih]

theorem envGet_envSet_self (m : List (Str × Str)) (k v : Str) :
    envGet (envSet m k v) k = some v := by
  rw [envSet]
  by_cases hany : m.any (fun kv => kv.1 = k) = true
  · rw [if_pos hany, envGet, find?_map_envSet_self m k v hany]
    rfl
  · rw [Bool.not_eq_true, List.any_eq_false] at hany
    have hfalse : m.any (fun kv => kv.1 = k) = false := List.any_eq_false.mpr hany
    rw [if_neg (by simp [hfalse]), envGet, List.find?_append]
    have h1 : m.find? (fun kv => kv.1 = k) = none := by
      rw [List.find?_eq_none]
      intro kv hkv
      simpa using hany kv hkv
    rw [h1]
    simp only [Option.none_or]
    rw [List.find?_cons_of_pos _ (by simp)]
    rfl

theorem envGet_envSet_ne (m : List (Str × Str)) (k v k' : Str) (h : k' ≠ k) :
    envGet (envSet m k v) k' = envGet m k' := by
  rw [envSet]
  by_cases hany : m.any (fun kv => kv.1 = k) = true
  · rw [if_pos hany, envGet, envGet,
        find?_map_envSet_ne m k v k' (fun he => h he.symm)]
  · rw [if_neg hany, envGet, envGet, List.find?_append]
    cases hf : m.find? (fun kv => kv.1 = k') with
    | some kv => rfl
    | none =>
      simp only [Option.none_or]
      rw [List.find?_cons_of_neg _ (by simpa using fun he => h he.symm)]
      rfl

theorem envGet_isSome_envSet (m : List (Str × Str)) (k v k' : Str)
    (h : (envGet m k').isSome = true) :
    (envGet (envSet m k v) k').isSome = true := by
  by_cases he : k' = k
  · subst he
    rw [envGet_envSet_self]
    rfl
  · rwa [envGet_envSet_ne m k v k' he]

theorem envGet_foldl_isSome (pairs : List (Str × Str)) :
    ∀ (m0 : List (Str × Str)) (k : Str), (envGet m0 k).isSome = true →
      (envGet (pairs.foldl (fun env kv => envSet env kv.1 kv.2) m0) k).isSome = true := by
  induction pairs with
  | nil => intro m0 k h; exact h
  | cons kv tl ih =>
    intro m0 k h
    rw [List.foldl_cons]
    exact ih _ k (envGet_isSome_envSet m0 kv.1 kv.2 k h)

theorem envGet_foldl_not_mem (pairs : List (Str × Str)) :
    ∀ (m0 : List (Str × Str)) (k : Str), (∀ kv ∈ pairs, kv.1 ≠ k) →
      envGet (pairs.foldl (fun env kv => envSet env kv.1 kv.2) m0) k =
        envGet m0 k := by
  induction pairs with
  | nil => intro m0 k _; rfl
  | cons kv tl ih =>
    intro m0 k h
    rw [List.foldl_cons,
        ih _ k (fun x hx => h x (List.mem_cons_of_mem _ hx)),
        envGet_envSet_ne m0 kv.1 kv.2 k
          (fun he => h kv (List.mem_cons_self _ _) he.symm)]

theorem envGet_foldl_mem (pairs : List (Str × Str)) :
    ∀ (m0 : List (Str × Str)) (k v : Str),
      ((pairs.map Prod.fst).Nodup) → (k, v) ∈ pairs →
      envGet (pairs.foldl (fun env kv => envSet env kv.1 kv.2) m0) k = some v := by
  induction pairs with
  | nil => intro m0 k v _ hmem; simp at hmem
  | cons kv tl ih =>
    intro m0 k v hnd hmem
    rw [List.foldl_cons]
    rcases List.mem_cons.mp hmem with heq | hmem'
    · have hk : kv.1 = k := by rw [← heq]
      have hv : kv.2 = v := by rw [← heq]
      have hnin : ∀ x ∈ tl, x.1 ≠ k := by
        intro x hx hxe
        simp only [List.map_cons, List.nodup_cons] at hnd
        exact hnd.1 (hk ▸ hxe ▸ List.mem_map_of_mem Prod.fst hx)
      rw [envGet_foldl_not_mem tl _ k hnin, hk, hv, envGet_envSet_self]
    · exact ih _ k v (by simpa using hnd.of_cons) hmem'

theorem envGet_map_val (m : List (Str × Str)) (f : Str → Str) (k : Str) :
    envGet (m.map (fun kv => (kv.1, f kv.2))) k = (envGet m k).map f := by
  induction m with
  | nil => rfl
  | cons kv tl ih =>
    by_cases hk : kv.1 = k
    · rw [List.map_cons, envGet, List.find?_cons_of_pos _ (by simpa using hk),
          envGet, List.find?_cons_of_pos _ (by simpa using hk)]
      rfl
    · rw [List.map_cons, envGet, List.find?_cons_of_neg _ (by simpa using hk),
          envGet, List.find?_cons_of_neg _ (by simpa using hk)]
      exact ih

theorem dropWhile_idem (p : Char → Bool) (l : Str) :
    (l.dropWhile p).dropWhile p = l.dropWhile p := by
  induction l with
  | nil => rfl
  | cons x xs ih =>
    by_cases hx : p x <;> simp [List.dropWhile_cons, hx, ih]

theorem trimLeft_idem (s : Str) : trimLeftStr (trimLeftStr s) = trimLeftStr s :=
  dropWhile_idem isWsChar s

theorem trimRight_idem (s : Str) : trimRightStr (trimRightStr s) = trimRightStr s := by
  unfold trimRightStr
  rw [List.reverse_reverse, dropWhile_idem]

theorem trimLeft_rev_of_trimRight (y : Str) (h : trimRightStr y = y) :
    trimLeftStr y.reverse = y.reverse := by
  have := congrArg List.reverse h
  rw [trimRightStr, List.reverse_reverse] at this
  exact this

theorem trimRight_of_suffix (y s' : Str) (h : trimRightStr y = y)
    (hs : s' <:+ y) : trimRightStr s' = s' := by
  cases hs' : s' with
  | nil => rfl
  | cons c cs =>
    subst hs'
    have hrev : trimLeftStr y.reverse = y.reverse := trimLeft_rev_of_trimRight y h
    obtain ⟨t, ht⟩ := hs
    have hyrev : y.reverse = (c :: cs).reverse ++ t.reverse := by
      rw [← ht]; simp
    cases hy : y.reverse with
    | nil =>
      rw [hy] at hyrev
      have : (c :: cs).reverse = [] := by
        cases hrev2 : (c :: cs).reverse with
        | nil => rfl
        | cons a b => rw [hrev2] at hyrev; simp at hyrev
      simp at this
    | cons a b =>
      have ha : isWsChar a = false := head_not_ws_of_trimLeft a b (hy ▸ hrev)
      -- head of s'.reverse equals head of y.reverse since s'.reverse <+: y.reverse
      have hpre : (c :: cs).reverse <+: y.reverse := by
        rw [hyrev]; exact ⟨t.reverse, rfl⟩
      cases hrev2 : (c :: cs).reverse with
      | nil => simp at hrev2
      | cons a2 b2 =>
        have ha2 : a2 = a := by
          rw [hrev2, hy] at hpre
          exact (List.cons_prefix_cons.mp hpre).1
        show ((c :: cs).reverse.dropWhile isWsChar).reverse = c :: cs
        rw [hrev2, List.dropWhile_cons]
        rw [show isWsChar a2 = false from ha2 ▸ ha]
        simp only [Bool.false_eq_true, if_false]
        rw [← hrev2]
        simp

theorem trimStr_idem (s : Str) : trimStr (trimStr s) = trimStr s := by
  rw [trimStr, trimStr]
  have h1 : trimRightStr (trimLeftStr (trimRightStr s)) =
      trimLeftStr (trimRightStr s) :=
    trimRight_of_suffix (trimRightStr s) _ (trimRight_idem s)
      (List.dropWhile_suffix isWsChar)
  rw [h1, trimLeft_idem]

theorem trimLeft_subset (s : Str) : trimLeftStr s ⊆ s :=
  (List.dropWhile_sublist isWsChar).subset

theorem trimRight_subset (s : Str) : trimRightStr s ⊆ s := by
  intro x hx
  rw [trimRightStr, List.mem_reverse] at hx
  have hx2 := (List.dropWhile_sublist (l := s.reverse) isWsChar).subset hx
  rwa [List.mem_reverse] at hx2

theorem trimStr_subset (s : Str) : trimStr s ⊆ s := by
  intro x hx
  exact trimRight_subset s (trimLeft_subset _ hx)

theorem stripQuotes_subset (v : Str) : stripQuotes v ⊆ v := by
  rw [stripQuotes]
  split
  · intro x hx
    exact List.drop_subset 1 v (List.dropLast_subset _ hx)
  · exact List.Subset.refl v

theorem parseLine_some (line k v : Str) (h : parseLine line = some (k, v)) :
    (trimStr k = k ∧ '=' ∉ k ∧ ['#'].isPrefixOf k = false) ∧
      k ⊆ line ∧ v ⊆ line := by
  simp only [parseLine] at h
  by_cases h1 : trimStr line = []
  · rw [if_pos h1] at h
    simp at h
  rw [if_neg h1] at h
  by_cases h2 : ['#'].isPrefixOf (trimStr line) = true
  · rw [if_pos h2] at h
    simp at h
  rw [if_neg h2] at h
  cases hsf : splitFirst '=' (trimStr line) with
  | none => rw [hsf] at h; simp at h
  | some p =>
    rw [hsf] at h
    simp only [Option.some_inj, Prod.mk.injEq] at h
    have hk : k = trimStr p.1 := h.1.symm
    have hv : v = stripQuotes p.2 := h.2.symm
    obtain ⟨hdec, hnmem⟩ := splitFirst_eq '=' (trimStr line) p.1 p.2 hsf
    obtain ⟨hTL, hTR⟩ := trim_stable_split (trimStr line) (trimStr_idem line)
    have hksub : k ⊆ line := by
      intro x hx
      apply trimStr_subset line
      rw [hdec]
      exact List.mem_append_left _ (trimStr_subset p.1 (hk ▸ hx))
    have hvsub : v ⊆ line := by
      intro x hx
      apply trimStr_subset line
      rw [hdec]
      refine List.mem_append_right _ (List.mem_cons_of_mem _ ?_)
      exact stripQuotes_subset p.2 (hv ▸ hx)
    refine ⟨⟨hk ▸ trimStr_idem p.1, ?_, ?_⟩, hksub, hvsub⟩
    · intro hx
      exact hnmem (trimStr_subset p.1 (hk ▸ hx))
    · cases hp1 : p.1 with
      | nil => rw [hk, hp1]; rfl
      | cons c cs =>
        rw [hp1] at hdec
        have hstable : trimLeftStr (c :: (cs ++ '=' :: p.2)) =
            c :: (cs ++ '=' :: p.2) := by
          rw [← List.cons_append, ← hdec]
          exact hTL
        have hcws : isWsChar c = false :=
          head_not_ws_of_trimLeft c (cs ++ '=' :: p.2) hstable
        have hchash : ¬ ('#' = c) := by
          intro he
          apply h2
          rw [hdec, List.cons_append]
          simp [List.isPrefixOf]
          exact he
        have hkform : k = c :: trimRightStr cs := by
          rw [hk, hp1, trimStr, trimRight_cons_not_ws c cs hcws,
              trimLeftStr, List.dropWhile_cons, hcws]
          simp
        rw [hkform]
        simp [List.isPrefixOf]
        exact hchash

theorem mem_envSet (m : List (Str × Str)) (k v : Str) (kv' : Str × Str)
    (h : kv' ∈ envSet m k v) : kv' ∈ m ∨ kv' = (k, v) := by
  rw [envSet] at h
  by_cases hany : m.any (fun kv => kv.1 = k) = true
  · rw [if_pos hany] at h
    obtain ⟨kv, hkv, heq⟩ := List.mem_map.mp h
    by_cases hk : kv.1 = k
    · rw [if_pos hk] at heq
      exact Or.inr heq.symm
    · rw [if_neg hk] at heq
      exact Or.inl (heq ▸ hkv)
  · rw [if_neg hany] at h
    rcases List.mem_append.mp h with h2 | h2
    · exact Or.inl h2
    · exact Or.inr (by simpa using h2)

theorem envSet_keys_nodup (m : List (Str × Str)) (k v : Str)
    (h : (m.map Prod.fst).Nodup) : ((envSet m k v).map Prod.fst).Nodup := by
  rw [envSet]
  by_cases hany : m.any (fun kv => kv.1 = k) = true
  · rw [if_pos hany]
    have heq : (m.map (fun kv => if kv.1 = k then (k, v) else kv)).map Prod.fst =
        m.map Prod.fst := by
      rw [List.map_map]
      apply List.map_congr_left
      intro kv _
      by_cases hk : kv.1 = k <;> simp [hk]
    rw [heq]
    exact h
  · rw [if_neg hany, List.map_append, List.nodup_append]
    rw [Bool.not_eq_true, List.any_eq_false] at hany
    refine ⟨h, by simp, ?_⟩
    intro x hx
    simp only [List.map_cons, List.map_nil, List.mem_singleton]
    obtain ⟨kv, hkv, rfl⟩ := List.mem_map.mp hx
    intro he
    have hne := hany kv hkv
    simp only [decide_eq_true_eq] at hne
    exact hne he

theorem foldl_envSet_keys_nodup (pairs : List (Str × Str)) :
    ∀ m0 : List (Str × Str), ((m0.map Prod.fst).Nodup) →
      (((pairs.foldl (fun env kv => envSet env kv.1 kv.2) m0).map Prod.fst).Nodup) := by
  induction pairs with
  | nil => intro m0 h; exact h
  | cons kv tl ih =>
    intro m0 h
    rw [List.foldl_cons]
    exact ih _ (envSet_keys_nodup m0 kv.1 kv.2 h)

theorem mem_foldl_envSet (pairs : List (Str × Str)) :
    ∀ (m0 : List (Str × Str)) (kv' : Str × Str),
      kv' ∈ pairs.foldl (fun env kv => envSet env kv.1 kv.2) m0 →
      kv' ∈ m0 ∨ kv' ∈ pairs := by
  induction pairs with
  | nil => intro m0 kv' h; exact Or.inl h
  | cons kv tl ih =>
    intro m0 kv' h
    rw [List.foldl_cons] at h
    rcases ih _ kv' h with h2 | h2
    · rcases mem_envSet m0 kv.1 kv.2 kv' h2 with h3 | h3
      · exact Or.inl h3
      · exact Or.inr (h3 ▸ List.mem_cons_self _ _)
    · exact Or.inr (List.mem_cons_of_mem _ h2)

theorem parse_fold_invariant (lines : List Str) :
    ∀ acc : List (Str × Str),
      (∀ line ∈ lines, '\n' ∉ line) →
      (∀ kv ∈ acc, wfKey kv.1 ∧ '\n' ∉ kv.2) →
      ((acc.map Prod.fst).Nodup) →
      (∀ kv ∈ lines.foldl
          (fun env line =>
            match parseLine line with
            | some (k, v) => envSet env k v
            | none => env) acc,
        wfKey kv.1 ∧ '\n' ∉ kv.2) ∧
      (((lines.foldl
          (fun env line =>
            match parseLine line with
            | some (k, v) => envSet env k v
            | none => env) acc).map Prod.fst).Nodup) := by
  induction lines with
  | nil => intro acc _ hacc hnd; exact ⟨hacc, hnd⟩
  | cons line tl ih =>
    intro acc hlines hacc hnd
    rw [List.foldl_cons]
    cases hpl : parseLine line with
    | none =>
      exact ih acc (fun l hl => hlines l (List.mem_cons_of_mem _ hl)) hacc hnd
    | some kv0 =>
      have hwf := parseLine_some line kv0.1 kv0.2 (by rw [hpl])
      have hlnl : '\n' ∉ line := hlines line (List.mem_cons_self _ _)
      have hnew : wfKey kv0.1 ∧ '\n' ∉ kv0.2 := by
        refine ⟨⟨hwf.1.1, hwf.1.2.1, ?_, hwf.1.2.2⟩, ?_⟩
        · exact fun hin => hlnl (hwf.2.1 hin)
        · exact fun hin => hlnl (hwf.2.2 hin)
      refine ih _ (fun l hl => hlines l (List.mem_cons_of_mem _ hl)) ?_
        (envSet_keys_nodup acc kv0.1 kv0.2 hnd)
      intro kv hkv
      rcases mem_envSet acc kv0.1 kv0.2 kv hkv with h2 | h2
      · exact hacc kv h2
      · rw [h2]
        exact hnew

theorem parse_entries (text : Str) :
    (∀ kv ∈ parseDotEnv text, wfKey kv.1 ∧ '\n' ∉ kv.2) ∧
      (((parseDotEnv text).map Prod.fst).Nodup) := by
  rw [parseDotEnv]
  refine parse_fold_invariant (text.splitOn '\n') [] ?_ (by simp) (by simp)
  intro line hl hc
  have := mem_splitOnP_not_p (· == '\n') text line hl '\n' hc
  simp at this

theorem envGet_map_mangle (m : List (Str × Str)) (k : Str) :
    envGet (m.map (fun kv => (kv.1, stripQuotes (trimRightStr kv.2)))) k =
      (envGet m k).map (fun x => stripQuotes (trimRightStr x)) :=
  envGet_map_val m (fun x => stripQuotes (trimRightStr x)) k


theorem findRun_deleteRun (rs : List RunR) (cs : List ContainerR) (id : String) :
    findRun ⟨deleteRun rs id, cs⟩ id = none := by
  simp [findRun, deleteRun, List.find?_eq_none]

theorem find?_finishRun (rs : List RunR) (id s : String) :
    (finishRun rs id s).find? (fun r => r.id = id) =
      (rs.find? (fun r => r.id = id)).map
        (fun run => { run with status := s, listeners := [] }) := by
  induction rs with
  | nil => simp [finishRun]
  | cons r tl ih =>
    by_cases hid : r.id = id
    · simp [finishRun, hid, List.find?_cons_of_pos]
    · simp only [finishRun, List.map_cons] at ih ⊢
      rw [if_neg hid, List.find?_cons_of_neg, List.find?_cons_of_neg, ih] <;> simp [hid]

theorem stopRunHandler_absent (st : SpawnerSt) (id : String)
    (h : findRun st id = none) : stopRunHandler st id = fallbackTeardown st id := by
  simp [stopRunHandler, h]

theorem killRunHandler_absent (st : SpawnerSt) (id : String)
    (h : findRun st id = none) : killRunHandler st id = fallbackTeardown st id := by
  simp [killRunHandler, h]

theorem closeRunHandler_absent (st : SpawnerSt) (id : String)
    (h : findRun st id = none) : closeRunHandler st id = fallbackTeardown st id := by
  simp [closeRunHandler, h]

theorem findRun_stop (st : SpawnerSt) (id : String) :
    findRun (stopRunHandler st id).st id = none := by
  unfold stopRunHandler
  cases hf : findRun st id with
  | none => simpa [fallbackTeardown, findRun] using hf
  | some r => by_cases he : r.isExec <;> simp [he, findRun_deleteRun]

theorem findRun_kill (st : SpawnerSt) (id : String) :
    findRun (killRunHandler st id).st id = none := by
  unfold killRunHandler
  cases hf : findRun st id with
  | none => simpa [fallbackTeardown, findRun] using hf
  | some r => by_cases he : r.isExec <;> simp [he, findRun_deleteRun]

theorem findRun_close (st : SpawnerSt) (id : String) :
    findRun (closeRunHandler st id).st id = none := by
  unfold closeRunHandler
  cases hf : findRun st id with
  | none => simpa [fallbackTeardown, findRun] using hf
  | some r => by_cases he : r.isExec <;> simp [he, findRun_deleteRun]

theorem filter_isEmpty_eq_not_any {α : Type} (l : List α) (p : α → Bool) :
    (l.filter p).isEmpty = !l.any p := by
  induction l with
  | nil => rfl
  | cons x xs ih => by_cases hx : p x <;> simp [hx, ih]

theorem ite_pair_fst (a b c : Bool) (l1 l2 l3 : List Str) :
    (if a = true then (true, l1)
     else if b = true then (true, l2)
     else (c, l3)).1 = (a || b || c) := by
  cases a <;> cases b <;> simp

theorem framesGo_dataFields (ls acc : List Str) :
    framesGo none acc ((ls.map SSEWrite.dataField) ++ [SSEWrite.blank]) =
      [⟨none, acc ++ ls⟩] := by
  induction ls generalizing acc with
  | nil => simp [framesGo]
  | cons x xs ih =>
    simp only [List.map_cons, List.cons_append, framesGo, List.append_eq]
    rw [ih]
    simp

/- ---------------------------------------------------------------------
Claims.
--------------------------------------------------------------------- -/

/-- C1, counterexample: the claim says every transition out of `running`
removes the run from the registry.  But the warm-exec stream `end`
handler only sets the status: afterwards the registry still holds the
run, now with status `exited` ≠ `running`. -/
theorem c1_counterexample :
    (streamEndHandler demoSt demoWarmRun).st.runs.any
      (fun r => r.id = "r1" && r.status ≠ "running") = true := by decide

/-- C1, amended: the explicit terminal requests (stop, kill, close)
do remove the run from the registry, but stream end, container exit and
idle expiry leave it registered with a non-running status (`exited`
resp. `stopped`). -/
theorem c1_amended :
    ∀ (st : SpawnerSt) (id : String) (run : RunR),
      findRun (stopRunHandler st id).st id = none ∧
      findRun (killRunHandler st id).st id = none ∧
      findRun (closeRunHandler st id).st id = none ∧
      (findRun st run.id = some run →
        findRun (streamEndHandler st run).st run.id =
          some { run with status := "exited", listeners := [] } ∧
        findRun (containerExitHandler st run).st run.id =
          some { run with status := "exited", listeners := [] } ∧
        findRun (autoStopRun st run).st run.id =
          some { run with status := "stopped", listeners := [] }) := by
  intro st id run
  refine ⟨findRun_stop st id, findRun_kill st id, findRun_close st id, ?_⟩
  intro hreg
  have hmap : ∀ s : String, findRun ⟨finishRun st.runs run.id s, st.containers⟩ run.id =
      some { run with status := s, listeners := [] } := by
    intro s
    have h1 := find?_finishRun st.runs run.id s
    have h2 : List.find? (fun r => r.id = run.id) st.runs = some run := by
      simpa [findRun] using hreg
    simp [findRun, h1, h2]
  constructor
  · simpa [streamEndHandler, findRun] using hmap "exited"
  constructor
  · simpa [containerExitHandler, findRun] using hmap "exited"
  · unfold autoStopRun
    by_cases he : run.isExec <;> simpa [he, findRun] using hmap "stopped"

/-- C1, witness for the amended theorem at the demo state. -/
theorem c1_amended_witness :
    findRun (stopRunHandler demoSt "r1").st "r1" = none ∧
    findRun (streamEndHandler demoSt demoWarmRun).st "r1" =
      some { demoWarmRun with status := "exited", listeners := [] } :=
  ⟨(c1_amended demoSt "r1" demoWarmRun).1,
   ((c1_amended demoSt "r1" demoWarmRun).2.2.2 (by decide)).1⟩

/-- C2, counterexample: after a warm-exec stream end the run stays in the
registry, so a subsequent `DELETE /runs/:id` finds it and broadcasts
`run-stopped` — a second terminal event for the same run, and the second
terminal request was not a no-op. -/
theorem c2_counterexample :
    (streamEndHandler demoSt demoWarmRun).events ++
        (stopRunHandler (streamEndHandler demoSt demoWarmRun).st "r1").events =
      ["run-exited", "run-stopped"] ∧
    (["run-exited", "run-stopped"].all (fun e => e ∈ terminalEventNames)) = true := by
  constructor
  · rfl
  · decide

/-- C2, amended: each handler emits at most one terminal event per
invocation; after stop/kill/close the run is gone, so any further
stop/kill/close on the same id takes the fallback path, emits no event
and still returns success — but (per the counterexample) stream end and
idle expiry do not end the lifetime, so a terminal request after them
emits a second event. -/
theorem c2_amended :
    ∀ (st : SpawnerSt) (id : String) (run : RunR),
      (stopRunHandler st id).events.length ≤ 1 ∧
      (killRunHandler st id).events.length ≤ 1 ∧
      (closeRunHandler st id).events.length ≤ 1 ∧
      (streamEndHandler st run).events = ["run-exited"] ∧
      (autoStopRun st run).events = ["run-idle-stopped"] ∧
      (findRun st id = none →
        (stopRunHandler st id).events = [] ∧ (stopRunHandler st id).resp.ok = true ∧
        (killRunHandler st id).events = [] ∧ (killRunHandler st id).resp.ok = true ∧
        (closeRunHandler st id).events = [] ∧ (closeRunHandler st id).resp.ok = true) ∧
      (stopRunHandler (stopRunHandler st id).st id).events = [] ∧
      (killRunHandler (stopRunHandler st id).st id).events = [] ∧
      (closeRunHandler (stopRunHandler st id).st id).events = [] ∧
      (stopRunHandler (killRunHandler st id).st id).events = [] ∧
      (killRunHandler (killRunHandler st id).st id).events = [] ∧
      (closeRunHandler (killRunHandler st id).st id).events = [] ∧
      (stopRunHandler (closeRunHandler st id).st id).events = [] ∧
      (killRunHandler (closeRunHandler st id).st id).events = [] ∧
      (closeRunHandler (closeRunHandler st id).st id).events = [] := by
  intro st id run
  have hlen : ∀ st' : SpawnerSt,
      (stopRunHandler st' id).events.length ≤ 1 ∧
      (killRunHandler st' id).events.length ≤ 1 ∧
      (closeRunHandler st' id).events.length ≤ 1 := by
    intro st'
    refine ⟨?_, ?_, ?_⟩
    · unfold stopRunHandler
      cases hf : findRun st' id with
      | none => simp [fallbackTeardown]
      | some r => by_cases he : r.isExec <;> simp [he]
    · unfold killRunHandler
      cases hf : findRun st' id with
      | none => simp [fallbackTeardown]
      | some r => by_cases he : r.isExec <;> simp [he]
    · unfold closeRunHandler
      cases hf : findRun st' id with
      | none => simp [fallbackTeardown]
      | some r => by_cases he : r.isExec <;> simp [he]
  have habs : ∀ st' : SpawnerSt, findRun st' id = none →
      (stopRunHandler st' id).events = [] ∧ (stopRunHandler st' id).resp.ok = true ∧
      (killRunHandler st' id).events = [] ∧ (killRunHandler st' id).resp.ok = true ∧
      (closeRunHandler st' id).events = [] ∧ (closeRunHandler st' id).resp.ok = true := by
    intro st' h
    rw [stopRunHandler_absent st' id h, killRunHandler_absent st' id h,
        closeRunHandler_absent st' id h]
    simp [fallbackTeardown]
  refine ⟨(hlen st).1, (hlen st).2.1, (hlen st).2.2, rfl, ?_, habs st, ?_⟩
  · unfold autoStopRun
    by_cases he : run.isExec <;> simp [he]
  refine ⟨(habs _ (findRun_stop st id)).1, (habs _ (findRun_stop st id)).2.2.1,
          (habs _ (findRun_stop st id)).2.2.2.2.1,
          (habs _ (findRun_kill st id)).1, (habs _ (findRun_kill st id)).2.2.1,
          (habs _ (findRun_kill st id)).2.2.2.2.1,
          (habs _ (findRun_close st id)).1, (habs _ (findRun_close st id)).2.2.1,
          (habs _ (findRun_close st id)).2.2.2.2.1⟩

/-- C2, witness for the amended theorem: a stop of an unknown id emits no
event and still answers success. -/
theorem c2_amended_witness :
    (stopRunHandler demoSt "rX").events = [] ∧
    (stopRunHandler demoSt "rX").resp.ok = true :=
  ⟨((c2_amended demoSt "rX" demoWarmRun).2.2.2.2.2.1 (by decide)).1,
   ((c2_amended demoSt "rX" demoWarmRun).2.2.2.2.2.1 (by decide)).2.1⟩

/-- C3: every terminal operation on a warm-exec run leaves the Docker
container list untouched (so the warm container stays `running`), while
every terminal operation on a fresh run leaves no container with the
run's container id (container exit removes it via `AutoRemove`). -/
theorem c3_confirmed :
    ∀ (st : SpawnerSt) (id : String) (run : RunR),
      findRun st id = some run →
      (run.isExec = true →
        (stopRunHandler st id).st.containers = st.containers ∧
        (killRunHandler st id).st.containers = st.containers ∧
        (closeRunHandler st id).st.containers = st.containers ∧
        (autoStopRun st run).st.containers = st.containers ∧
        (streamEndHandler st run).st.containers = st.containers) ∧
      (run.isExec = false →
        (∀ c ∈ (stopRunHandler st id).st.containers, c.cid ≠ run.containerId) ∧
        (∀ c ∈ (killRunHandler st id).st.containers, c.cid ≠ run.containerId) ∧
        (∀ c ∈ (closeRunHandler st id).st.containers, c.cid ≠ run.containerId) ∧
        (∀ c ∈ (autoStopRun st run).st.containers, c.cid ≠ run.containerId) ∧
        (∀ c ∈ (containerExitHandler st run).st.containers,
          c.cid ≠ run.containerId)) := by
  intro st id run hf
  constructor
  · intro he
    refine ⟨?_, ?_, ?_, ?_, rfl⟩ <;>
      simp [stopRunHandler, killRunHandler, closeRunHandler, autoStopRun, hf, he]
  · intro he
    have hmem : ∀ c ∈ removeContainer st.containers run.containerId,
        c.cid ≠ run.containerId := by
      intro c hc
      simp [removeContainer, List.mem_filter] at hc
      exact hc.2
    refine ⟨?_, ?_, ?_, ?_, ?_⟩ <;>
      · intro c hc
        apply hmem c
        simpa [stopRunHandler, killRunHandler, closeRunHandler, autoStopRun,
               containerExitHandler, hf, he] using hc

/-- C3, witness: warm-exec stop keeps the containers; fresh stop leaves
no container with the run's container id. -/
theorem c3_confirmed_witness :
    (stopRunHandler demoSt "r1").st.containers = demoSt.containers ∧
    ((stopRunHandler demoSt "r2").st.containers.all
      (fun c => c.cid ≠ "c2")) = true := by
  refine ⟨((c3_confirmed demoSt "r1" demoWarmRun (by decide)).1 (by decide)).1, ?_⟩
  have h := ((c3_confirmed demoSt "r2" demoFreshRun (by decide)).2 (by decide)).1
  rw [List.all_eq_true]
  intro c hc
  simpa using h c hc

/-- C4, counterexample: the guard's acceptance is NOT equivalent to
"equal to or a strict descendant of an allow-list root".  `/a/..b` is
absolute, already normalized, and a strict descendant of the root `/a`,
yet `isAllowed` rejects it: `path.relative('/a','/a/..b') = "..b"`
starts with the two characters `..`, so `isSubPath` returns false. -/

theorem c4_counterexample :
    isAllowed "/a/..b".toList ["/a".toList] = false ∧
    specAllowed "/a/..b".toList ["/a".toList] = true ∧
    resolveStr "/a/..b".toList = "/a/..b".toList ∧
    pSegs "/a".toList ≠ pSegs "/a/..b".toList := by decide


/-- C4, amended: for canonical allow-list roots (the source resolves them
at configuration time), a path is accepted iff after normalization it
equals a root or is a strict descendant of a root WHOSE first segment
below the root does not begin with two dots; the claim's sibling
guarantee (root `/a/b` does not admit `/a/bc`) does hold. -/

theorem c4_amended :
    ∀ (p : Str) (roots : List Str),
      (∀ r ∈ roots, r = resolveStr r) →
      ((isAllowed p roots = true ↔
         ∃ r ∈ roots, pSegs p = pSegs r ∨ cleanDescendant r p = true) ∧
       isAllowed "/a/bc".toList ["/a/b".toList] = false) := by
  intro p roots hcanon
  refine ⟨?_, by decide⟩
  simp only [isAllowed, List.any_eq_true, Bool.or_eq_true, decide_eq_true_eq]
  constructor
  · rintro ⟨r, hr, hor⟩
    exact ⟨r, hr, (isAllowed_iff_aux p r (hcanon r hr)).mp hor⟩
  · rintro ⟨r, hr, hor⟩
    exact ⟨r, hr, (isAllowed_iff_aux p r (hcanon r hr)).mpr hor⟩


/-- C4, witness for the amended theorem: `/a/b/c` is accepted under the
canonical root `/a`. -/
theorem c4_amended_witness :
    isAllowed "/a/b/c".toList ["/a".toList] = true :=
  ((c4_amended "/a/b/c".toList ["/a".toList] (by decide)).1).mpr (by decide)


/-- C5, counterexample: a stop of a runId that is neither registered nor
carried by any labelled container does NOT return 404; the fallback
branch lists zero containers and answers
`{ok:true, removed:false, fallback:true}` with HTTP 200. -/
theorem c5_counterexample :
    (stopRunHandler ⟨[], []⟩ "rX").resp.status = 200 ∧
    (stopRunHandler ⟨[], []⟩ "rX").resp = ⟨200, true, some false, true, none⟩ := by
  constructor
  · rfl
  · rfl


/-- C5, amended: stop of an absent runId always answers
`{ok:true, fallback:true}` with `removed` reporting whether any container
carried the `adz.runId` label (404 only when listing containers throws,
which is outside the model); afterwards no such labelled container
remains, and a subsequent stop answers `removed:false` (not 404). -/
theorem c5_amended :
    ∀ (st : SpawnerSt) (id : String),
      findRun st id = none →
      (stopRunHandler st id).resp =
        ⟨200, true, some (st.containers.any (fun c => hasLabel c "adz.runId" id)),
         true, none⟩ ∧
      (∀ c ∈ (stopRunHandler st id).st.containers,
        hasLabel c "adz.runId" id = false) ∧
      (stopRunHandler (stopRunHandler st id).st id).resp =
        ⟨200, true, some false, true, none⟩ := by
  intro st id h
  rw [stopRunHandler_absent st id h]
  have h2 : findRun (fallbackTeardown st id).st id = none := h
  rw [stopRunHandler_absent _ id h2]
  refine ⟨?_, ?_, ?_⟩
  · simp [fallbackTeardown, filter_isEmpty_eq_not_any]
  · intro c hc
    simp [fallbackTeardown, List.mem_filter] at hc
    exact hc.2
  · simp [fallbackTeardown, List.filter_filter]


/-- C5, witness for the amended theorem at a state with one labelled
container for the absent id. -/
theorem c5_amended_witness :
    (stopRunHandler ⟨[], [⟨"c9", [("adz.runId", "rY")], "running"⟩]⟩ "rY").resp =
      ⟨200, true,
       some (([⟨"c9", [("adz.runId", "rY")], "running"⟩] : List ContainerR).any
         (fun c => hasLabel c "adz.runId" "rY")),
       true, none⟩ :=
  (c5_amended ⟨[], [⟨"c9", [("adz.runId", "rY")], "running"⟩]⟩ "rY" (by decide)).1


/-- C6, counterexample: `writeEnv` then `readEnv` does not always return
identical values — a value wrapped in double quotes is written verbatim
but read back with the quotes stripped. -/

theorem c6_counterexample :
    envGet (readCredsEnv (some (writeCredsEnv none
        [("A".toList, "\"v\"".toList)]).2)) "A".toList = some "v".toList ∧
    "v".toList ≠ "\"v\"".toList := by
  constructor
  · decide
  · decide


/-- C6, amended: for updates whose keys are well formed and whose values
are newline-free, trailing-whitespace-free and not quote-wrapped, the
write-then-read round trip returns every written key with the identical
value (including keys whose updated value is the empty string — `wfVal []`
holds), and no key present before the overlay is deleted. -/

theorem c6_amended :
    ∀ (file : Option Str) (updates : List (Str × Str)),
      (∀ kv ∈ updates, wfKey kv.1 ∧ wfVal kv.2) →
      ((updates.map Prod.fst).Nodup) →
      (∀ kv ∈ updates,
        envGet (readCredsEnv (some (writeCredsEnv file updates).2)) kv.1 =
          some kv.2) ∧
      (∀ k, (envGet (readCredsEnv file) k).isSome = true →
        (envGet (readCredsEnv (some (writeCredsEnv file updates).2)) k).isSome
          = true) := by
  intro file updates hwf hnd
  have hcur : ∀ kv ∈ readCredsEnv file, wfKey kv.1 ∧ '\n' ∉ kv.2 := by
    cases file with
    | none => simp [readCredsEnv]
    | some t => exact (parse_entries t).1
  have hcurnd : ((readCredsEnv file).map Prod.fst).Nodup := by
    cases file with
    | none => simp [readCredsEnv]
    | some t => exact (parse_entries t).2
  have hnextwf : ∀ kv ∈ (writeCredsEnv file updates).1, wfKey kv.1 := by
    intro kv hkv
    rcases mem_foldl_envSet updates (readCredsEnv file) kv hkv with h | h
    · exact (hcur kv h).1
    · exact (hwf kv h).1
  have hnextnl : ∀ kv ∈ (writeCredsEnv file updates).1, '\n' ∉ kv.2 := by
    intro kv hkv
    rcases mem_foldl_envSet updates (readCredsEnv file) kv hkv with h | h
    · exact (hcur kv h).2
    · exact (hwf kv h).2.2.1
  have hnextnd : (((writeCredsEnv file updates).1).map Prod.fst).Nodup :=
    foldl_envSet_keys_nodup updates (readCredsEnv file) hcurnd
  have hafter : readCredsEnv (some (writeCredsEnv file updates).2) =
      ((writeCredsEnv file updates).1).map
        (fun kv => (kv.1, stripQuotes (trimRightStr kv.2))) := by
    show parseDotEnv (serializeDotEnv (writeCredsEnv file updates).1) = _
    exact parse_serialize _ hnextwf hnextnl hnextnd
  constructor
  · intro kv hkv
    rw [hafter, envGet_map_mangle]
    have hget : envGet (writeCredsEnv file updates).1 kv.1 = some kv.2 := by
      show envGet (updates.foldl (fun env kv => envSet env kv.1 kv.2)
        (readCredsEnv file)) kv.1 = some kv.2
      exact envGet_foldl_mem updates (readCredsEnv file) kv.1 kv.2 hnd
        (by simpa using hkv)
    rw [hget]
    obtain ⟨-, hv⟩ := hwf kv hkv
    show some (stripQuotes (trimRightStr kv.2)) = some kv.2
    rw [hv.1, hv.2.2]
  · intro k hk
    rw [hafter, envGet_map_mangle]
    have hsome : (envGet (writeCredsEnv file updates).1 k).isSome = true := by
      show (envGet (updates.foldl (fun env kv => envSet env kv.1 kv.2)
        (readCredsEnv file)) k).isSome = true
      exact envGet_foldl_isSome updates (readCredsEnv file) k hk
    cases hg : envGet (writeCredsEnv file updates).1 k with
    | none => rw [hg] at hsome; simp at hsome
    | some v => rfl


/-- C6, witness for the amended theorem: a plain key/value round-trips. -/

theorem c6_amended_witness :
    envGet (readCredsEnv (some (writeCredsEnv none
        [("A".toList, "x".toList)]).2)) "A".toList = some "x".toList :=
  (c6_amended none [("A".toList, "x".toList)] (by decide) (by decide)).1
    ("A".toList, "x".toList) (by decide)

/-- C7: `checkReadiness` computes exactly the per-engine rules — codex is
ready iff `OPENAI_API_KEY` is set (truthy) or `codex/` is non-empty;
gemini iff `GEMINI_API_KEY` is set or `gemini/` or `gcloud/` is
non-empty; opencode iff any of the three keys is set or `opencode/` is
non-empty. -/
theorem c7_confirmed :
    ∀ (creds : Str) (roots : List Str) (file : Option Str) (dirFull : Str → Bool),
      isAllowed creds roots = true →
      ((checkReadiness "codex".toList creds roots file dirFull).map ReadinessRec.ready =
        some (envTruthy (readCredsEnv file) "OPENAI_API_KEY".toList ||
              dirFull (pathJoin creds "codex".toList))) ∧
      ((checkReadiness "gemini".toList creds roots file dirFull).map ReadinessRec.ready =
        some (envTruthy (readCredsEnv file) "GEMINI_API_KEY".toList ||
              dirFull (pathJoin creds "gemini".toList) ||
              dirFull (pathJoin creds "gcloud".toList))) ∧
      ((checkReadiness "opencode".toList creds roots file dirFull).map ReadinessRec.ready =
        some (envTruthy (readCredsEnv file) "OPENAI_API_KEY".toList ||
              envTruthy (readCredsEnv file) "ANTHROPIC_API_KEY".toList ||
              envTruthy (readCredsEnv file) "GEMINI_API_KEY".toList ||
              dirFull (pathJoin creds "opencode".toList))) := by
  intro creds roots file dirFull h
  refine ⟨?_, ?_, ?_⟩
  · simp [checkReadiness, h, hasEnvKey, existsDirRec]
  · simp [checkReadiness, h, hasEnvKey, existsDirRec]
  · simp [checkReadiness, h, hasEnvKey, existsDirRec, ite_pair_fst, Bool.or_assoc]

/-- C7, witness at an allow-listed creds directory with no `.env` file
and empty engine sub-directories. -/
theorem c7_confirmed_witness :
    (checkReadiness "codex".toList "/cr".toList ["/cr".toList] none
        (fun _ => false)).map ReadinessRec.ready =
      some (envTruthy (readCredsEnv none) "OPENAI_API_KEY".toList ||
        (fun _ => false) (pathJoin "/cr".toList "codex".toList)) :=
  (c7_confirmed "/cr".toList ["/cr".toList] none (fun _ => false) (by decide)).1

/-- C8, counterexample: warm-pool lookup does NOT normalize paths before
comparing — a request whose workspace differs only by a trailing slash
normalizes to the same absolute path but fails to find the warm
container that the slash-free request finds. -/
theorem c8_counterexample :
    findWarmContainer [demoWarmContainer] demoFp = some demoWarmContainer ∧
    findWarmContainer [demoWarmContainer]
      ⟨"codex", "/ws/", "/cr", true, none⟩ = none ∧
    resolveStr "/ws/".toList = resolveStr "/ws".toList := by
  refine ⟨?_, ?_, ?_⟩ <;> decide

/-- C8, amended: a warm container created for fingerprint `fp` matches
the lookup filters for `fp'` iff the five fields are byte-equal AS GIVEN
(with `uidgid` compared after the `|| ''` coercion) — no path
normalization is applied on either side. -/
theorem c8_amended :
    ∀ (fp fp' : Fingerprint) (cid st0 : String),
      matchesLabelFilters ⟨cid, labelsForWarm fp, st0⟩ (warmFilterLabels fp') = true ↔
        (fp'.engine = fp.engine ∧ fp'.workspace = fp.workspace ∧
         fp'.creds = fp.creds ∧ fp'.readOnly = fp.readOnly ∧
         fp'.uidgid.getD "" = fp.uidgid.getD "") := by
  intro fp fp' cid st0
  obtain ⟨e, w, cr, ro, ug⟩ := fp
  obtain ⟨e', w', cr', ro', ug'⟩ := fp'
  cases ro <;> cases ro' <;>
    simp [matchesLabelFilters, warmFilterLabels, labelsForWarm, Prod.ext_iff] <;>
    aesop

/-- C9, counterexample: the initial transcript tail is sent by `sseSend`
as a plain default-event frame (raw text, no `chunk` event name, no
base-64), and each live chunk produces TWO frames, not one. -/
theorem c9_counterexample :
    framesOf (logsTailWrites "hello".toList) = [⟨none, ["hello".toList]⟩] ∧
    (framesOf (chunkListenerWrites "aGk=".toList)).length = 2 := by
  constructor
  · rfl
  · rfl

/-- C9, amended: each live chunk yields exactly two frames — an
`event: chunk` frame carrying the base-64 payload followed by an unnamed
data frame carrying the `b64:`-prefixed base-64 payload; the initial
tail is one unnamed frame of raw text split on newlines; and the tail
read size is `min(fileSize, 64 KiB)` as claimed. -/
theorem c9_amended :
    ∀ (b64 t : Str) (n : Nat),
      framesOf (chunkListenerWrites b64) =
        [⟨some "chunk".toList, [b64]⟩, ⟨none, ["b64:".toList ++ b64]⟩] ∧
      framesOf (logsTailWrites t) = [⟨none, t.splitOn '\n'⟩] ∧
      tailReadSize n = min n 65536 := by
  intro b64 t n
  refine ⟨rfl, ?_, rfl⟩
  have := framesGo_dataFields (t.splitOn '\n') []
  simpa [framesOf, logsTailWrites, sseSendWrites] using this

/-- C10: `stop-all` and `kill-all` clear the whole registry
unconditionally (warm-exec runs included, even when their warm containers
are skipped by `includeWarm=false`), broadcast no lifecycle event and
close no listener. -/
theorem c10_confirmed :
    ∀ (st : SpawnerSt) (includeWarm : Bool),
      (stopAllHandler st includeWarm).st.runs = [] ∧
      (stopAllHandler st includeWarm).events = [] ∧
      (stopAllHandler st includeWarm).closedListeners = [] ∧
      (killAllHandler st includeWarm).st.runs = [] ∧
      (killAllHandler st includeWarm).events = [] ∧
      (killAllHandler st includeWarm).closedListeners = [] ∧
      (includeWarm = false →
        ∀ c ∈ st.containers, isWarmLabelled c = true →
          c ∈ (stopAllHandler st includeWarm).st.containers) := by
  intro st b
  refine ⟨rfl, rfl, rfl, rfl, rfl, rfl, ?_⟩
  intro hb c hc hw
  subst hb
  simp [stopAllHandler, List.mem_filter, bulkTarget, hw]
  exact hc

/-- C10, witness at the demo state with `includeWarm = false`. -/
theorem c10_confirmed_witness :
    (stopAllHandler demoSt false).st.runs = [] ∧
    demoWarmContainer ∈ (stopAllHandler demoSt false).st.containers := by
  refine ⟨(c10_confirmed demoSt false).1, ?_⟩
  exact (c10_confirmed demoSt false).2.2.2.2.2.2 rfl demoWarmContainer
    (by decide) (by decide)
